import Mathlib

/-!
# Verification of the job-matching endpoint (`src/backend/main.py`)

Shallow embedding of the `/match` handler `match_jobs`:

```python
@app.post("/match")
def match_jobs(candidate: dict, jobs: List[dict]):
    matched_jobs = []
    for job in jobs:
        score = sum(skill in job["required_skills"] for skill in candidate["skills"])
        if score > 0:
            job["match_score"] = score
            matched_jobs.append(job)
    matched_jobs.sort(key=lambda x: x["match_score"], reverse=True)
    return {"matches": matched_jobs}
```

Records are Python dicts; the fields the code reads or writes are modelled
explicitly, with `Option` for fields a caller may omit (a missing field makes
the `dict` lookup raise `KeyError`, modelled as an error result).  All other
fields of a job record are carried opaquely in `extra`.  Python mutates job
records in place; the embedding makes the final state of every input record
explicit in the output (`finalJobs`), so frame properties are statable.  The
candidate record is never written by the code, and the embedding is a pure
function of it.
-/

/-- A candidate record.  The handler reads exactly one field,
`candidate["skills"]`; `none` models a dict without that key. -/
structure Candidate where
  skills : Option (List String)
deriving Repr, DecidableEq

/-- A job record.  `required_skills` is read by the handler (`none` models a
missing key), `match_score` is written by it on the positive-score branch
(`none` models the key being absent), and `extra` stands for all remaining
fields (title, id, description, ...), which the handler never inspects. -/
structure Job where
  required_skills : Option (List String)
  match_score : Option Nat
  extra : List (String × String)
deriving Repr, DecidableEq

/-- The only failure of the handler body: a `KeyError` from a missing
`skills` or `required_skills` key.  The specification calls it
`MalformedInput`. -/
inductive MatchError where
  | malformedInput
deriving Repr, DecidableEq

/-- `sum(skill in req for skill in skills)`: the number of entries of
`skills` (with multiplicity) whose exact string is a member of `req`.
Membership is one boolean test per candidate skill, so duplicates inside
`req` do not increase the count. -/
def jobScore (skills req : List String) : Nat :=
  List.countP (fun skill => req.contains skill) skills

/-- One evaluation of
`score = sum(skill in job["required_skills"] for skill in candidate["skills"])`.
`candidate["skills"]` is the outermost iterable of the generator expression,
so it is evaluated as soon as the expression is built: a missing `skills` key
raises on every loop iteration.  `job["required_skills"]` is evaluated inside
the generator body, once per candidate skill: when the candidate's skill list
is empty it is never evaluated, so a missing `required_skills` key goes
unnoticed for that job. -/
def scoreJob (c : Candidate) (job : Job) : Except MatchError Nat :=
  match c.skills with
  | none => .error .malformedInput
  | some [] => .ok 0
  | some skills =>
    match job.required_skills with
    | none => .error .malformedInput
    | some req => .ok (jobScore skills req)

/-- The `for job in jobs:` loop.  Returns the `matched_jobs` list (annotated
jobs with positive score, in input order) together with the final state of
every input job record, in input order (Python mutates the records in
place; `finalJobs` makes that state explicit). -/
def matchLoop (c : Candidate) : List Job → Except MatchError (List Job × List Job)
  | [] => .ok ([], [])
  | job :: rest =>
    match scoreJob c job with
    | .error e => .error e
    | .ok score =>
      if 0 < score then
        match matchLoop c rest with
        | .error e => .error e
        | .ok (m, fs) =>
          .ok ({ job with match_score := some score } :: m,
               { job with match_score := some score } :: fs)
      else
        match matchLoop c rest with
        | .error e => .error e
        | .ok (m, fs) => .ok (m, job :: fs)

/-- The sort key `lambda x: x["match_score"]`.  Every job the loop keeps
carries the field; `getD 0` is the total reading of the lookup. -/
def sortKey (j : Job) : Nat := j.match_score.getD 0

/-- Insert a job into an already-processed suffix for the descending sort:
`j` goes in front of the first element whose key is `≤` its own, so an
earlier-input job precedes later-input jobs of equal key. -/
def insertJob (j : Job) : List Job → List Job
  | [] => [j]
  | k :: rest => if sortKey k ≤ sortKey j then j :: k :: rest else k :: insertJob j rest

/-- `matched_jobs.sort(key=lambda x: x["match_score"], reverse=True)`:
CPython's sort is stable, and `reverse=True` keeps equal-key elements in
their original order.  A stable descending sort is extensionally unique
(it orders by key descending, then by original position), so this stable
insertion sort is the same function on lists as the library sort. -/
def sortMatches : List Job → List Job
  | [] => []
  | j :: rest => insertJob j (sortMatches rest)

/-- Sorted in descending order of `match_score`. -/
def sortedDesc (l : List Job) : Prop :=
  List.Pairwise (fun a b => sortKey b ≤ sortKey a) l

/-- The handler's observable outcome: the list returned under the response
key `"matches"` (named after the source variable `matched_jobs` holding it,
since `matches` is reserved in Lean), plus the final state of the caller's
job records (mutated in place by the loop), in input order. -/
structure MatchOutput where
  matched_jobs : List Job
  finalJobs : List Job
deriving Repr, DecidableEq

/-- The `/match` handler body. -/
def match_jobs (c : Candidate) (jobs : List Job) : Except MatchError MatchOutput :=
  match matchLoop c jobs with
  | .error e => .error e
  | .ok (m, fs) => .ok ⟨sortMatches m, fs⟩

/-- Characterisation of the loop's `matched_jobs` list: the input jobs with a
positive score, each annotated, in input order. -/
def annotateJobs (c : Candidate) (jobs : List Job) : List Job :=
  jobs.filterMap fun j =>
    match scoreJob c j with
    | .error _ => none
    | .ok s => if 0 < s then some { j with match_score := some s } else none

/-- Characterisation of the final state of one input job record: annotated
with its score when that score is positive, untouched otherwise. -/
def annotatedState (c : Candidate) (j : Job) : Job :=
  match scoreJob c j with
  | .error _ => j
  | .ok s => if 0 < s then { j with match_score := some s } else j

/-- Scenario 1 candidate of the specification: skills `["python", "sql"]`. -/
def candidate1 : Candidate := ⟨some ["python", "sql"]⟩

/-- Scenario 1 first job: `{"required_skills": ["python", "go"]}`. -/
def job1 : Job := ⟨some ["python", "go"], none, []⟩

/-- Scenario 1 second job: `{"required_skills": ["sql", "python"]}`. -/
def job2 : Job := ⟨some ["sql", "python"], none, []⟩

/-- A job with a title field, matching one skill of `candidateA`. -/
def jobA : Job := ⟨some ["a", "go"], none, [("title", "A")]⟩

/-- A second job with a title field, also matching one skill of
`candidateA`, listed after `jobA`. -/
def jobB : Job := ⟨some ["a", "sql"], none, [("title", "B")]⟩

/-- A candidate matching exactly one skill of each of `jobA` and `jobB`. -/
def candidateA : Candidate := ⟨some ["a"]⟩

/-! ## Lemmas about the stable descending sort -/

theorem mem_insertJob (x j : Job) (l : List Job) :
    x ∈ insertJob j l ↔ x = j ∨ x ∈ l := by
  induction l with
  | nil => simp [insertJob]
  | cons k rest ih =>
    by_cases h : sortKey k ≤ sortKey j
    · simp [insertJob, h]
    · simp only [insertJob, if_neg h, List.mem_cons, ih]
      tauto

theorem insertJob_perm (j : Job) (l : List Job) :
    List.Perm (insertJob j l) (j :: l) := by
  induction l with
  | nil => simp [insertJob]
  | cons k rest ih =>
    by_cases h : sortKey k ≤ sortKey j
    · simp [insertJob, h]
    · simp only [insertJob, if_neg h]
      exact (ih.cons k).trans (List.Perm.swap j k rest)

theorem sortMatches_perm (l : List Job) : List.Perm (sortMatches l) l := by
  induction l with
  | nil => simp [sortMatches]
  | cons j rest ih =>
    simp only [sortMatches]
    exact (insertJob_perm j (sortMatches rest)).trans (ih.cons j)

theorem sortedDesc_insertJob (j : Job) (l : List Job) (h : sortedDesc l) :
    sortedDesc (insertJob j l) := by
  induction l with
  | nil => simp [insertJob, sortedDesc]
  | cons k rest ih =>
    rcases List.pairwise_cons.mp h with ⟨hk, hrest⟩
    by_cases hkj : sortKey k ≤ sortKey j
    · simp only [sortedDesc, insertJob, if_pos hkj]
      refine List.Pairwise.cons ?_ h
      intro y hy
      rcases List.mem_cons.mp hy with rfl | hy
      · exact hkj
      · exact le_trans (hk y hy) hkj
    · simp only [sortedDesc, insertJob, if_neg hkj]
      refine List.Pairwise.cons ?_ (ih hrest)
      intro y hy
      rcases (mem_insertJob y j rest).mp hy with rfl | hy
      · exact le_of_not_le hkj
      · exact hk y hy

theorem sortedDesc_sortMatches (l : List Job) : sortedDesc (sortMatches l) := by
  induction l with
  | nil => simp [sortMatches, sortedDesc]
  | cons j rest ih =>
    simp only [sortMatches]
    exact sortedDesc_insertJob j (sortMatches rest) ih

theorem insertJob_of_le (j : Job) (l : List Job)
    (h : ∀ y ∈ l, sortKey y ≤ sortKey j) : insertJob j l = j :: l := by
  cases l with
  | nil => rfl
  | cons k rest => simp [insertJob, h k (by simp)]

theorem sortMatches_of_sorted (l : List Job) (h : sortedDesc l) :
    sortMatches l = l := by
  induction l with
  | nil => rfl
  | cons j rest ih =>
    rcases List.pairwise_cons.mp h with ⟨hj, hrest⟩
    simp only [sortMatches, ih hrest]
    exact insertJob_of_le j rest hj

theorem filter_key_insertJob (j : Job) (l : List Job) (k : Nat) :
    (insertJob j l).filter (fun x => sortKey x == k) =
      if sortKey j == k then j :: l.filter (fun x => sortKey x == k)
      else l.filter (fun x => sortKey x == k) := by
  induction l with
  | nil => simp [insertJob, List.filter_cons]
  | cons x rest ih =>
    by_cases hx : sortKey x ≤ sortKey j
    · simp only [insertJob, if_pos hx, List.filter_cons]
    · have hjx : sortKey j < sortKey x := Nat.lt_of_not_le hx
      simp only [insertJob, if_neg hx, List.filter_cons, ih]
      by_cases hj : (sortKey j == k) = true
      · have hjk : sortKey j = k := by simpa using hj
        have hxk : (sortKey x == k) = false := by
          have hne : sortKey x ≠ k := by omega
          simpa using hne
        simp [hj, hxk]
      · simp [hj]

theorem filter_key_sortMatches (l : List Job) (k : Nat) :
    (sortMatches l).filter (fun x => sortKey x == k) =
      l.filter (fun x => sortKey x == k) := by
  induction l with
  | nil => rfl
  | cons j rest ih =>
    simp only [sortMatches, filter_key_insertJob, ih, List.filter_cons]

/-! ## Lemmas about the score computation and the loop -/

theorem scoreJob_ok_pos (c : Candidate) (j : Job) (s : Nat)
    (h : scoreJob c j = .ok s) (hs : 0 < s) :
    ∃ skills req, c.skills = some skills ∧ skills ≠ [] ∧
      j.required_skills = some req ∧ s = jobScore skills req := by
  rcases hc : c.skills with _ | skills
  · simp [scoreJob, hc] at h
  · cases skills with
    | nil =>
      simp [scoreJob, hc] at h
      omega
    | cons a as =>
      rcases hr : j.required_skills with _ | req
      · simp [scoreJob, hc, hr] at h
      · simp only [scoreJob, hc, hr] at h
        exact ⟨a :: as, req, rfl, by simp, rfl, by injection h; omega⟩

theorem scoreJob_congr (c : Candidate) (j j' : Job)
    (h : j.required_skills = j'.required_skills) : scoreJob c j = scoreJob c j' := by
  unfold scoreJob
  rw [h]

theorem scoreJob_empty_skills (c : Candidate) (j : Job) (h : c.skills = some []) :
    scoreJob c j = .ok 0 := by
  simp [scoreJob, h]

theorem scoreJob_not_ok (c : Candidate) (j : Job) :
    (¬ ∃ s, scoreJob c j = .ok s) ↔ scoreJob c j = .error .malformedInput := by
  rcases h : scoreJob c j with e | s
  · cases e
    simp
  · simp

theorem scoreJob_error_iff (c : Candidate) (j : Job) :
    scoreJob c j = .error .malformedInput ↔
      c.skills = none ∨
        ∃ skills, c.skills = some skills ∧ skills ≠ [] ∧ j.required_skills = none := by
  rcases hc : c.skills with _ | skills
  · simp [scoreJob, hc]
  · cases skills with
    | nil => simp [scoreJob, hc]
    | cons a as =>
      rcases hr : j.required_skills with _ | req
      · simp [scoreJob, hc, hr]
      · simp [scoreJob, hc, hr]

theorem matchLoop_ok_parts (c : Candidate) (jobs m fs : List Job)
    (h : matchLoop c jobs = .ok (m, fs)) :
    m = annotateJobs c jobs ∧ fs = jobs.map (annotatedState c) := by
  induction jobs generalizing m fs with
  | nil =>
    simp only [matchLoop, Except.ok.injEq, Prod.mk.injEq] at h
    simp [annotateJobs, ← h.1, ← h.2]
  | cons job rest ih =>
    unfold matchLoop at h
    split at h
    · simp at h
    · rename_i s hs
      split at h
      · rename_i hpos
        split at h
        · simp at h
        · rename_i p m' fs' hrec
          simp only [Except.ok.injEq, Prod.mk.injEq] at h
          rcases ih m' fs' hrec with ⟨hm', hfs'⟩
          constructor
          · rw [← h.1, hm']
            simp [annotateJobs, hs, hpos]
          · rw [← h.2, hfs']
            simp [annotatedState, hs, hpos]
      · rename_i hpos
        split at h
        · simp at h
        · rename_i p m' fs' hrec
          simp only [Except.ok.injEq, Prod.mk.injEq] at h
          rcases ih m' fs' hrec with ⟨hm', hfs'⟩
          constructor
          · rw [← h.1, hm']
            simp [annotateJobs, hs, hpos]
          · rw [← h.2, hfs']
            simp [annotatedState, hs, hpos]

theorem matchLoop_isOk_iff (c : Candidate) (jobs : List Job) :
    (∃ p, matchLoop c jobs = .ok p) ↔ ∀ j ∈ jobs, ∃ s, scoreJob c j = .ok s := by
  induction jobs with
  | nil => simp [matchLoop]
  | cons job rest ih =>
    constructor
    · rintro ⟨p, hp⟩
      unfold matchLoop at hp
      split at hp
      · simp at hp
      · rename_i s hs
        intro j hj
        rcases List.mem_cons.mp hj with rfl | hj
        · exact ⟨s, hs⟩
        · refine (ih.mp ?_) j hj
          split at hp
          · split at hp
            · simp at hp
            · rename_i q m' fs' hrec
              exact ⟨(m', fs'), hrec⟩
          · split at hp
            · simp at hp
            · rename_i q m' fs' hrec
              exact ⟨(m', fs'), hrec⟩
    · intro hall
      obtain ⟨s, hs⟩ := hall job (by simp)
      obtain ⟨⟨m', fs'⟩, hrec⟩ := ih.mpr fun j hj => hall j (by simp [hj])
      by_cases hpos : 0 < s
      · exact ⟨({ job with match_score := some s } :: m',
                { job with match_score := some s } :: fs'),
          by simp [matchLoop, hs, hrec, hpos]⟩
      · exact ⟨(m', job :: fs'), by simp [matchLoop, hs, hrec, hpos]⟩

theorem matchLoop_not_ok (c : Candidate) (jobs : List Job) :
    (¬ ∃ p, matchLoop c jobs = .ok p) ↔ matchLoop c jobs = .error .malformedInput := by
  rcases h : matchLoop c jobs with e | p
  · cases e
    simp
  · simp

theorem match_jobs_ok_parts (c : Candidate) (jobs : List Job) (out : MatchOutput)
    (h : match_jobs c jobs = .ok out) :
    out.matched_jobs = sortMatches (annotateJobs c jobs) ∧
    out.finalJobs = jobs.map (annotatedState c) := by
  unfold match_jobs at h
  split at h
  · simp at h
  · rename_i p m fs hloop
    rcases matchLoop_ok_parts c jobs m fs hloop with ⟨hm, hfs⟩
    simp only [Except.ok.injEq] at h
    rw [← h]
    exact ⟨by rw [hm], hfs⟩

theorem annotate_fn_eq_some (c : Candidate) (j job : Job) :
    (match scoreJob c j with
      | .error _ => none
      | .ok s => if 0 < s then some { j with match_score := some s } else none) =
        some job ↔
      ∃ s, scoreJob c j = .ok s ∧ 0 < s ∧ job = { j with match_score := some s } := by
  rcases h : scoreJob c j with e | s
  · simp
  · by_cases hpos : 0 < s
    · simp only [if_pos hpos, Option.some.injEq]
      constructor
      · rintro rfl
        exact ⟨s, rfl, hpos, rfl⟩
      · rintro ⟨s', hs', _, rfl⟩
        simp only [Except.ok.injEq] at hs'
        rw [hs']
    · simp only [if_neg hpos]
      constructor
      · rintro ⟨⟩
      · rintro ⟨s', hs', hpos', _⟩
        simp only [Except.ok.injEq] at hs'
        omega

theorem mem_annotateJobs (c : Candidate) (jobs : List Job) (job : Job) :
    job ∈ annotateJobs c jobs ↔
      ∃ j ∈ jobs, ∃ s, scoreJob c j = .ok s ∧ 0 < s ∧
        job = { j with match_score := some s } := by
  unfold annotateJobs
  rw [List.mem_filterMap]
  constructor
  · rintro ⟨j, hj, hf⟩
    exact ⟨j, hj, (annotate_fn_eq_some c j job).mp hf⟩
  · rintro ⟨j, hj, hs⟩
    exact ⟨j, hj, (annotate_fn_eq_some c j job).mpr hs⟩

theorem mem_matched_iff (c : Candidate) (jobs : List Job) (out : MatchOutput)
    (h : match_jobs c jobs = .ok out) (job : Job) :
    job ∈ out.matched_jobs ↔
      ∃ j ∈ jobs, ∃ s, scoreJob c j = .ok s ∧ 0 < s ∧
        job = { j with match_score := some s } := by
  rw [(match_jobs_ok_parts c jobs out h).1, (sortMatches_perm _).mem_iff,
    mem_annotateJobs]

theorem annotatedState_frame (c : Candidate) (j : Job) :
    (annotatedState c j).required_skills = j.required_skills ∧
    (annotatedState c j).extra = j.extra := by
  unfold annotatedState
  split
  · simp
  · split <;> simp

theorem matchLoop_error_iff (c : Candidate) (jobs : List Job) :
    matchLoop c jobs = .error .malformedInput ↔
      ∃ j ∈ jobs, scoreJob c j = .error .malformedInput := by
  rw [← matchLoop_not_ok, matchLoop_isOk_iff]
  push_neg
  constructor
  · rintro ⟨j, hj, hnot⟩
    exact ⟨j, hj, (scoreJob_not_ok c j).mp (by simpa using hnot)⟩
  · rintro ⟨j, hj, herr⟩
    refine ⟨j, hj, ?_⟩
    intro s
    simp [herr]

/-! ## Claim theorems -/

/-- C1: every job in the result of `match_jobs` has `match_score` equal to the
number of entries of `candidate.skills` (counted with multiplicity, no
deduplication) that are members of that job's `required_skills`, one boolean
membership test per candidate skill (`jobScore`), so duplicates inside
`required_skills` do not increase the count. -/
theorem matched_job_score_eq_count (c : Candidate) (jobs : List Job)
    (out : MatchOutput) (h : match_jobs c jobs = .ok out)
    (job : Job) (hj : job ∈ out.matched_jobs) :
    ∃ skills req, c.skills = some skills ∧ job.required_skills = some req ∧
      job.match_score = some (jobScore skills req) := by
  obtain ⟨j, hjmem, s, hs, hpos, rfl⟩ := (mem_matched_iff c jobs out h job).mp hj
  obtain ⟨skills, req, hcs, hne, hreq, rfl⟩ := scoreJob_ok_pos c j s hs hpos
  exact ⟨skills, req, hcs, by simpa using hreq, rfl⟩

/-- Witness for C1: scenario-1 candidate against the second scenario-1 job. -/
theorem matched_job_score_eq_count_witness :
    ∃ skills req, candidate1.skills = some skills ∧
      (Job.mk (some ["sql", "python"]) (some 2) []).required_skills = some req ∧
      (Job.mk (some ["sql", "python"]) (some 2) []).match_score =
        some (jobScore skills req) :=
  matched_job_score_eq_count candidate1 [job2]
    ⟨[Job.mk (some ["sql", "python"]) (some 2) []],
     [Job.mk (some ["sql", "python"]) (some 2) []]⟩ (by rfl)
    (Job.mk (some ["sql", "python"]) (some 2) []) (by simp)

/-- C2: the result list is sorted in descending order of `match_score`, it is
a permutation of the loop's matched list `annotateJobs` (the positive-score
jobs annotated, in input order), and within every score value the result
preserves that input order: the sort is stable with original input order as
tie-break. -/
theorem matched_sorted_desc_stable (c : Candidate) (jobs : List Job)
    (out : MatchOutput) (h : match_jobs c jobs = .ok out) :
    sortedDesc out.matched_jobs ∧
    List.Perm out.matched_jobs (annotateJobs c jobs) ∧
    ∀ k, out.matched_jobs.filter (fun x => sortKey x == k) =
      (annotateJobs c jobs).filter (fun x => sortKey x == k) := by
  obtain ⟨hm, _⟩ := match_jobs_ok_parts c jobs out h
  refine ⟨?_, ?_, ?_⟩
  · rw [hm]
    exact sortedDesc_sortMatches _
  · rw [hm]
    exact sortMatches_perm _
  · intro k
    rw [hm]
    exact filter_key_sortMatches _ k

/-- Witness for C2: two jobs tied at score 1 keep their input order. -/
theorem matched_sorted_desc_stable_witness :
    sortedDesc [Job.mk (some ["a", "go"]) (some 1) [("title", "A")],
                Job.mk (some ["a", "sql"]) (some 1) [("title", "B")]] ∧
    List.Perm [Job.mk (some ["a", "go"]) (some 1) [("title", "A")],
               Job.mk (some ["a", "sql"]) (some 1) [("title", "B")]]
      (annotateJobs candidateA [jobA, jobB]) ∧
    ∀ k, List.filter (fun x => sortKey x == k)
          [Job.mk (some ["a", "go"]) (some 1) [("title", "A")],
           Job.mk (some ["a", "sql"]) (some 1) [("title", "B")]] =
        (annotateJobs candidateA [jobA, jobB]).filter (fun x => sortKey x == k) :=
  matched_sorted_desc_stable candidateA [jobA, jobB]
    ⟨[Job.mk (some ["a", "go"]) (some 1) [("title", "A")],
      Job.mk (some ["a", "sql"]) (some 1) [("title", "B")]],
     [Job.mk (some ["a", "go"]) (some 1) [("title", "A")],
      Job.mk (some ["a", "sql"]) (some 1) [("title", "B")]]⟩ (by rfl)

/-- C3: every returned job has `match_score >= 1`, a job whose computed score
is 0 is absent from the result, and the result is at most as long as the
input job list. -/
theorem matched_positive_bounded_absent (c : Candidate) (jobs : List Job)
    (out : MatchOutput) (h : match_jobs c jobs = .ok out) :
    (∀ job ∈ out.matched_jobs, ∃ s, job.match_score = some s ∧ 1 ≤ s) ∧
    out.matched_jobs.length ≤ jobs.length ∧
    (∀ j ∈ jobs, scoreJob c j = .ok 0 → j ∉ out.matched_jobs) := by
  refine ⟨?_, ?_, ?_⟩
  · intro job hjm
    obtain ⟨j, hjmem, s, hs, hpos, rfl⟩ := (mem_matched_iff c jobs out h job).mp hjm
    exact ⟨s, rfl, hpos⟩
  · calc out.matched_jobs.length = (annotateJobs c jobs).length := by
          rw [(match_jobs_ok_parts c jobs out h).1]
          exact (sortMatches_perm _).length_eq
    _ ≤ jobs.length := by
          unfold annotateJobs
          exact List.length_filterMap_le _ _
  · intro j hjmem h0 hjm
    obtain ⟨j', hj', s, hs', hpos, heq⟩ := (mem_matched_iff c jobs out h j).mp hjm
    have hcong : scoreJob c j = scoreJob c j' := scoreJob_congr c j j' (by rw [heq])
    rw [h0, hs'] at hcong
    simp only [Except.ok.injEq] at hcong
    omega

/-- Witness for C3: scenario 1 has two returned jobs out of two inputs, both
with positive scores. -/
theorem matched_positive_bounded_absent_witness :
    (∀ job ∈ [Job.mk (some ["sql", "python"]) (some 2) [],
              Job.mk (some ["python", "go"]) (some 1) []],
      ∃ s, job.match_score = some s ∧ 1 ≤ s) ∧
    ([Job.mk (some ["sql", "python"]) (some 2) [],
      Job.mk (some ["python", "go"]) (some 1) []].length ≤ [job1, job2].length) ∧
    (∀ j ∈ [job1, job2], scoreJob candidate1 j = .ok 0 →
      j ∉ [Job.mk (some ["sql", "python"]) (some 2) [],
           Job.mk (some ["python", "go"]) (some 1) []]) :=
  matched_positive_bounded_absent candidate1 [job1, job2]
    ⟨[Job.mk (some ["sql", "python"]) (some 2) [],
      Job.mk (some ["python", "go"]) (some 1) []],
     [Job.mk (some ["python", "go"]) (some 1) [],
      Job.mk (some ["sql", "python"]) (some 2) []]⟩ (by rfl)

/-- Counterexample to C4: the claim requires every call on a job list that
contains a job without `required_skills` to fail, but with an empty candidate
skill list the generator body — and hence the `job["required_skills"]`
lookup — never runs, so the call succeeds and returns an empty result.
Likewise, with an empty job list the loop body never runs, so even an absent
`candidate.skills` does not make the call fail, refuting the other direction
of the claimed equivalence as well. -/
theorem malformed_required_counterexample :
    (Job.mk none none []).required_skills = none ∧
    (Job.mk none none []) ∈ [Job.mk none none []] ∧
    match_jobs ⟨some []⟩ [Job.mk none none []] =
      .ok ⟨[], [Job.mk none none []]⟩ ∧
    (Candidate.mk none).skills = none ∧
    match_jobs ⟨none⟩ [] = .ok ⟨[], []⟩ :=
  ⟨rfl, by simp, by rfl, rfl, by rfl⟩

/-- C4 (amended): `match_jobs` fails — necessarily with the `MalformedInput`
kind, the only one — if and only if either the job list is non-empty and
`candidate.skills` is absent, or `candidate.skills` is present and non-empty
and some job in the input list lacks `required_skills`. -/
theorem malformed_error_iff (c : Candidate) (jobs : List Job) :
    match_jobs c jobs = .error .malformedInput ↔
      (c.skills = none ∧ jobs ≠ []) ∨
      (∃ skills, c.skills = some skills ∧ skills ≠ [] ∧
        ∃ j ∈ jobs, j.required_skills = none) := by
  have h1 : match_jobs c jobs = .error .malformedInput ↔
      matchLoop c jobs = .error .malformedInput := by
    unfold match_jobs
    rcases h : matchLoop c jobs with e | p
    · cases e
      simp
    · rcases p with ⟨m, fs⟩
      simp
  rw [h1, matchLoop_error_iff]
  constructor
  · rintro ⟨j, hj, herr⟩
    rcases (scoreJob_error_iff c j).mp herr with hc | ⟨skills, hcs, hne, hreq⟩
    · refine Or.inl ⟨hc, ?_⟩
      rintro rfl
      simp at hj
    · exact Or.inr ⟨skills, hcs, hne, j, hj, hreq⟩
  · rintro (⟨hc, hne⟩ | ⟨skills, hcs, hne, j, hj, hreq⟩)
    · rcases jobs with _ | ⟨j, rest⟩
      · simp at hne
      · exact ⟨j, by simp, (scoreJob_error_iff c j).mpr (Or.inl hc)⟩
    · exact ⟨j, hj, (scoreJob_error_iff c j).mpr (Or.inr ⟨skills, hcs, hne, hreq⟩)⟩

/-- C5: an empty candidate skill list (against any job list, even one whose
jobs lack `required_skills`) and an empty job list (for any candidate) are
valid inputs: the call succeeds with an empty matches list, and no job record
is touched. -/
theorem empty_inputs_yield_empty (c : Candidate) (jobs : List Job) :
    (c.skills = some [] → match_jobs c jobs = .ok ⟨[], jobs⟩) ∧
    match_jobs c [] = .ok ⟨[], []⟩ := by
  constructor
  · intro hc
    have hloop : matchLoop c jobs = .ok ([], jobs) := by
      induction jobs with
      | nil => rfl
      | cons j rest ih => simp [matchLoop, scoreJob_empty_skills c j hc, ih]
    simp [match_jobs, hloop, sortMatches]
  · rfl

/-- Witness for C5: empty skills against a non-empty job list give an empty
result. -/
theorem empty_inputs_yield_empty_witness :
    match_jobs ⟨some []⟩ [Job.mk (some ["x"]) none []] =
      .ok ⟨[], [Job.mk (some ["x"]) none []]⟩ :=
  (empty_inputs_yield_empty ⟨some []⟩ [Job.mk (some ["x"]) none []]).1 rfl

/-- C6: the handler only augments job records with `match_score`: the final
state of every input job record keeps its `required_skills` and all its other
fields (`extra`) unchanged, in input order, and every returned job is an
input job with only its `match_score` field set.  The candidate record is
read, never written: the embedding is a pure function of it. -/
theorem only_match_score_changed (c : Candidate) (jobs : List Job)
    (out : MatchOutput) (h : match_jobs c jobs = .ok out) :
    out.finalJobs.length = jobs.length ∧
    (∀ i (hi : i < jobs.length) (ho : i < out.finalJobs.length),
      (out.finalJobs.get ⟨i, ho⟩).required_skills =
        (jobs.get ⟨i, hi⟩).required_skills ∧
      (out.finalJobs.get ⟨i, ho⟩).extra = (jobs.get ⟨i, hi⟩).extra) ∧
    (∀ job ∈ out.matched_jobs, ∃ j, j ∈ jobs ∧ ∃ s : Nat,
      job = { j with match_score := some s }) := by
  obtain ⟨hm, hfs⟩ := match_jobs_ok_parts c jobs out h
  refine ⟨by rw [hfs]; simp, ?_, ?_⟩
  · intro i hi ho
    have hget : out.finalJobs.get ⟨i, ho⟩ = annotatedState c (jobs.get ⟨i, hi⟩) := by
      simp only [hfs, List.get_eq_getElem, List.getElem_map]
    rw [hget]
    exact annotatedState_frame c (jobs.get ⟨i, hi⟩)
  · intro job hjm
    obtain ⟨j, hjmem, s, _, _, rfl⟩ := (mem_matched_iff c jobs out h job).mp hjm
    exact ⟨j, hjmem, s, rfl⟩

/-- Witness for C6: a job with a title field keeps it, annotated only with
its score. -/
theorem only_match_score_changed_witness :
    ([Job.mk (some ["a", "go"]) (some 1) [("title", "A")]].length =
      [jobA].length) ∧
    (∀ i (hi : i < [jobA].length)
        (ho : i < [Job.mk (some ["a", "go"]) (some 1) [("title", "A")]].length),
      ([Job.mk (some ["a", "go"]) (some 1) [("title", "A")]].get
          ⟨i, ho⟩).required_skills = ([jobA].get ⟨i, hi⟩).required_skills ∧
      ([Job.mk (some ["a", "go"]) (some 1) [("title", "A")]].get
          ⟨i, ho⟩).extra = ([jobA].get ⟨i, hi⟩).extra) ∧
    (∀ job ∈ [Job.mk (some ["a", "go"]) (some 1) [("title", "A")]],
      ∃ j, j ∈ [jobA] ∧ ∃ s : Nat, job = { j with match_score := some s }) :=
  only_match_score_changed candidateA [jobA]
    ⟨[Job.mk (some ["a", "go"]) (some 1) [("title", "A")]],
     [Job.mk (some ["a", "go"]) (some 1) [("title", "A")]]⟩ (by rfl)

/-- Helper for idempotence: on a list of jobs that already carry their own
positive recomputed score, the loop returns the list unchanged, both as
matches and as final states. -/
theorem matchLoop_fixed (c : Candidate) (l : List Job)
    (hall : ∀ job ∈ l, ∃ s, scoreJob c job = .ok s ∧ 0 < s ∧
      job.match_score = some s) :
    matchLoop c l = .ok (l, l) := by
  induction l with
  | nil => rfl
  | cons j rest ih =>
    obtain ⟨s, hs, hpos, hms⟩ := hall j (by simp)
    have hrec := ih fun job hj => hall job (by simp [hj])
    have hannot : { j with match_score := some s } = j := by
      cases j
      simp only [Job.mk.injEq, and_true, true_and]
      simp only [Job.match_score] at hms
      exact hms.symm
    simp [matchLoop, hs, hpos, hrec, hannot]

/-- C7: scoring depends only on `candidate.skills` and each job's
`required_skills` and never writes the candidate, so running `match_jobs`
again on the matches returned by a first call (candidate unchanged, job
records as annotated) recomputes the same score for every job and returns
the same list. -/
theorem rematch_idempotent (c : Candidate) (jobs : List Job) (out : MatchOutput)
    (h : match_jobs c jobs = .ok out) :
    match_jobs c out.matched_jobs = .ok ⟨out.matched_jobs, out.matched_jobs⟩ := by
  have hfix : ∀ job ∈ out.matched_jobs, ∃ s, scoreJob c job = .ok s ∧ 0 < s ∧
      job.match_score = some s := by
    intro job hjm
    obtain ⟨j, hjmem, s, hs, hpos, rfl⟩ := (mem_matched_iff c jobs out h job).mp hjm
    refine ⟨s, ?_, hpos, rfl⟩
    rw [scoreJob_congr c _ j (by simp)]
    exact hs
  have hsorted : sortedDesc out.matched_jobs := by
    rw [(match_jobs_ok_parts c jobs out h).1]
    exact sortedDesc_sortMatches _
  simp [match_jobs, matchLoop_fixed c out.matched_jobs hfix,
    sortMatches_of_sorted out.matched_jobs hsorted]

/-- Witness for C7: rescoring the scenario-1 output returns it unchanged. -/
theorem rematch_idempotent_witness :
    match_jobs candidate1
        [Job.mk (some ["sql", "python"]) (some 2) [],
         Job.mk (some ["python", "go"]) (some 1) []] =
      .ok ⟨[Job.mk (some ["sql", "python"]) (some 2) [],
            Job.mk (some ["python", "go"]) (some 1) []],
           [Job.mk (some ["sql", "python"]) (some 2) [],
            Job.mk (some ["python", "go"]) (some 1) []]⟩ :=
  rematch_idempotent candidate1 [job1, job2]
    ⟨[Job.mk (some ["sql", "python"]) (some 2) [],
      Job.mk (some ["python", "go"]) (some 1) []],
     [Job.mk (some ["python", "go"]) (some 1) [],
      Job.mk (some ["sql", "python"]) (some 2) []]⟩ (by rfl)

/-- C8: scenario 1 exactly: candidate skills `["python","sql"]` against the
two scenario jobs returns the second job with score 2 followed by the first
job with score 1 (and the callers' records end up annotated in place). -/
theorem scenario1_exact :
    match_jobs candidate1 [job1, job2] =
      .ok ⟨[Job.mk (some ["sql", "python"]) (some 2) [],
            Job.mk (some ["python", "go"]) (some 1) []],
           [Job.mk (some ["python", "go"]) (some 1) [],
            Job.mk (some ["sql", "python"]) (some 2) []]⟩ := by
  rfl

/-- C9: a job whose computed score is 0 is not only excluded from the result,
its record is left entirely unmodified — in particular no `match_score` field
is added to it. -/
theorem zero_score_job_untouched (c : Candidate) (jobs : List Job)
    (out : MatchOutput) (h : match_jobs c jobs = .ok out)
    (i : Nat) (hi : i < jobs.length) (ho : i < out.finalJobs.length)
    (h0 : scoreJob c (jobs.get ⟨i, hi⟩) = .ok 0) :
    out.finalJobs.get ⟨i, ho⟩ = jobs.get ⟨i, hi⟩ := by
  obtain ⟨_, hfs⟩ := match_jobs_ok_parts c jobs out h
  have hget : out.finalJobs.get ⟨i, ho⟩ = annotatedState c (jobs.get ⟨i, hi⟩) := by
    simp only [hfs, List.get_eq_getElem, List.getElem_map]
  have h0g : scoreJob c jobs[i] = Except.ok 0 := by simpa using h0
  rw [hget]
  simp [annotatedState, h0g]

/-- Witness for C9: a score-0 job record is returned to the caller exactly as
it came in, with no `match_score` key, while its neighbour is annotated. -/
theorem zero_score_job_untouched_witness :
    [Job.mk (some ["go"]) none [], Job.mk (some ["python"]) (some 1) []].get
        ⟨0, by decide⟩ =
      [Job.mk (some ["go"]) none [], Job.mk (some ["python"]) none []].get
        ⟨0, by decide⟩ :=
  zero_score_job_untouched ⟨some ["python"]⟩
    [Job.mk (some ["go"]) none [], Job.mk (some ["python"]) none []]
    ⟨[Job.mk (some ["python"]) (some 1) []],
     [Job.mk (some ["go"]) none [], Job.mk (some ["python"]) (some 1) []]⟩
    (by rfl) 0 (by decide) (by decide) (by rfl)

/-- C10: skill matching is exact string membership — case-sensitive, no
trimming or normalisation: a candidate skill equal to no entry of
`required_skills` (for example differing only in case, like `"Python"`
against `"python"`) contributes 0 to `jobScore`, the quantity `match_jobs`
stores in `match_score`. -/
theorem unmatched_skill_adds_nothing (skills req : List String) (s : String)
    (h : ∀ r ∈ req, r ≠ s) :
    jobScore (s :: skills) req = jobScore skills req := by
  have hnot : s ∉ req := fun hmem => h s hmem rfl
  have hc : req.contains s = false := by simpa using hnot
  simp [jobScore, List.countP_cons, hc, hnot]

/-- Witness for C10: `"Python"` differs from `"python"` only in case and
contributes nothing to the score. -/
theorem unmatched_skill_adds_nothing_witness :
    (∀ r ∈ ["python"], r ≠ "Python") ∧
    jobScore ["Python"] ["python"] = jobScore [] ["python"] :=
  ⟨by decide, unmatched_skill_adds_nothing [] ["python"] "Python" (by decide)⟩
